import Mathlib

/-!
Verification of the rendering and literal-range-merging core of `grex`
(`src/char/grapheme.rs` and `src/ast/format.rs`), shallowly embedded in Lean.

Strings are modelled as `List Char` (Rust `String`s here always hold valid
Unicode scalar values).  Rust `u32` occurrence bounds are modelled as `Nat`:
every arithmetic operation performed by the embedded code is shown not to
underflow or overflow in the branch where it occurs, so `Nat` arithmetic
agrees with `u32` arithmetic there.
-/

namespace Grex

/-- Rust's `char::is_ascii`: the scalar value is at most `0x7F`. -/
def charIsAscii (c : Char) : Bool := c.toNat ≤ 127

/-- The three tags of `GraphemeOverlapState` in `src/char/grapheme.rs`. -/
inductive GraphemeOverlapState where
  | Left
  | Right
  | Overlap
deriving DecidableEq, Repr

/-- `GraphemeOverlapState::flip` from `src/char/grapheme.rs`. -/
def GraphemeOverlapState.flip : GraphemeOverlapState → GraphemeOverlapState
  | .Left => .Right
  | .Right => .Left
  | .Overlap => .Overlap

/-- The `Grapheme` struct of `src/char/grapheme.rs`: a list of string
fragments, a list of sub-graphemes (`repetitions`), and inclusive occurrence
bounds `min`, `max`.  The `config` field (a `RegExpConfig` clone) is not a
field here: the configuration is passed explicitly to the operations that
consult it, and `overlap_with` merely copies it around. -/
inductive Grapheme where
  | mk (chars : List (List Char)) (repetitions : List Grapheme) (min max : Nat)

def Grapheme.chars : Grapheme → List (List Char)
  | .mk c _ _ _ => c

def Grapheme.repetitions : Grapheme → List Grapheme
  | .mk _ r _ _ => r

def Grapheme.min : Grapheme → Nat
  | .mk _ _ mn _ => mn

def Grapheme.max : Grapheme → Nat
  | .mk _ _ _ mx => mx

/-- `Grapheme::new` from `src/char/grapheme.rs`: fresh grapheme with the given
chars and bounds and an empty `repetitions` list. -/
def Grapheme.new (chars : List (List Char)) (min max : Nat) : Grapheme :=
  .mk chars [] min max

/-- The range-ordering test at the top of `Grapheme::overlap_with`
(`src/char/grapheme.rs` line 173):
`self.min > other.min || (self.min == other.min && self.max > other.max)`. -/
def Grapheme.sortsAfter (g1 g2 : Grapheme) : Bool :=
  g2.min < g1.min || (g1.min == g2.min && g2.max < g1.max)

theorem sortsAfter_asymm {g1 g2 : Grapheme} (h : g1.sortsAfter g2 = true) :
    g2.sortsAfter g1 = false := by
  simp [Grapheme.sortsAfter] at *
  omega

/-- `Grapheme::overlap_with` from `src/char/grapheme.rs` (lines 168–231).
The three conditional `result.push(...)` calls become conditional singleton
lists, appended in the order the source pushes them; the final `match
self.max.cmp(&other.max)` becomes the nested conditional.  In the branch
guarded by `self.min < other.min` we have `other.min ≥ 1`, so `other.min - 1`
does not underflow; `self.max + 1` (resp. `other.max + 1`) occurs only when
`self.max < other.max` (resp. `other.max < self.max`), so it does not
overflow `u32`; hence `Nat` arithmetic is faithful. -/
def Grapheme.overlap_with (g1 g2 : Grapheme) :
    Option (List (Grapheme × GraphemeOverlapState)) :=
  if g1.chars ≠ g2.chars then
    none
  else if g1.sortsAfter g2 then
    (g2.overlap_with g1).map (List.map (fun p => (p.1, p.2.flip)))
  else
    some
      ((if g1.min < g2.min then
          [(Grapheme.new g1.chars g1.min (Nat.min g1.max (g2.min - 1)),
            GraphemeOverlapState.Left)]
        else []) ++
       (if g2.min ≤ g1.max then
          [(Grapheme.new g1.chars g2.min (Nat.min g1.max g2.max),
            GraphemeOverlapState.Overlap)]
        else []) ++
       (if g1.max < g2.max then
          [(Grapheme.new g1.chars (Nat.max (g1.max + 1) g2.min) g2.max,
            GraphemeOverlapState.Right)]
        else if g1.max = g2.max then []
        else
          [(Grapheme.new g1.chars (Nat.max (g2.max + 1) g1.min) g1.max,
            GraphemeOverlapState.Left)]))
termination_by (if g1.sortsAfter g2 then 1 else 0)
decreasing_by
  simp only [sortsAfter_asymm (by assumption)]
  simp [*]

/-- The defining equation of `overlap_with`, restated for rewriting. -/
theorem overlap_with_eq (g1 g2 : Grapheme) :
    g1.overlap_with g2 =
      if g1.chars ≠ g2.chars then none
      else if g1.sortsAfter g2 then
        (g2.overlap_with g1).map (List.map (fun p => (p.1, p.2.flip)))
      else
        some
          ((if g1.min < g2.min then
              [(Grapheme.new g1.chars g1.min (Nat.min g1.max (g2.min - 1)),
                GraphemeOverlapState.Left)]
            else []) ++
           (if g2.min ≤ g1.max then
              [(Grapheme.new g1.chars g2.min (Nat.min g1.max g2.max),
                GraphemeOverlapState.Overlap)]
            else []) ++
           (if g1.max < g2.max then
              [(Grapheme.new g1.chars (Nat.max (g1.max + 1) g2.min) g2.max,
                GraphemeOverlapState.Right)]
            else if g1.max = g2.max then []
            else
              [(Grapheme.new g1.chars (Nat.max (g2.max + 1) g1.min) g1.max,
                GraphemeOverlapState.Left)])) := by
  rw [Grapheme.overlap_with]

theorem overlap_with_isSome_of_chars_eq {g1 g2 : Grapheme}
    (hc : g1.chars = g2.chars) : (g1.overlap_with g2).isSome := by
  rw [overlap_with_eq]
  by_cases hs : g1.sortsAfter g2
  · rw [overlap_with_eq g2 g1]
    simp [hc, hs, sortsAfter_asymm hs]
  · simp [hc, hs]

/-- **C2.** `overlap_with` returns `none` iff the two `chars` sequences
differ; whenever they are equal it returns `some` list. -/
theorem overlap_with_none_iff (g1 g2 : Grapheme) :
    g1.overlap_with g2 = none ↔ g1.chars ≠ g2.chars := by
  constructor
  · intro h hc
    have := overlap_with_isSome_of_chars_eq hc
    rw [h] at this
    simp at this
  · intro hc
    rw [overlap_with_eq]
    simp [hc]

theorem flip_flip (s : GraphemeOverlapState) : s.flip.flip = s := by
  cases s <;> rfl

/-- **C3.** For graphemes with identical `chars` whose ranges differ under the
`(min, max)` lexicographic ordering, `a.overlap_with b` is `b.overlap_with a`
with every tag flipped (`Left ↔ Right`, `Overlap` unchanged) and every piece's
range and content untouched. -/
theorem overlap_with_symm (g1 g2 : Grapheme) (hc : g1.chars = g2.chars)
    (hne : g1.sortsAfter g2 = true ∨ g2.sortsAfter g1 = true) :
    g1.overlap_with g2 =
      (g2.overlap_with g1).map (List.map (fun p => (p.1, p.2.flip))) := by
  rcases hne with hs | hs
  · rw [overlap_with_eq]
    simp [hc, hs]
  · rw [overlap_with_eq g2 g1]
    simp only [hc.symm, ne_eq, not_true_eq_false, if_false, hs, if_true]
    rw [Option.map_map]
    have : ((List.map fun p : Grapheme × GraphemeOverlapState =>
          (p.1, p.2.flip)) ∘
        List.map fun p : Grapheme × GraphemeOverlapState => (p.1, p.2.flip)) =
        id := by
      funext l
      simp [List.map_map, Function.comp_def, flip_flip]
    rw [this]
    simp

/-- Witness for **C3** at `chars = ["a"]`, ranges `(0,0)` and `(1,1)`. -/
theorem overlap_with_symm_witness :
    (Grapheme.mk [['a']] [] 0 0).overlap_with (Grapheme.mk [['a']] [] 1 1) =
      ((Grapheme.mk [['a']] [] 1 1).overlap_with
        (Grapheme.mk [['a']] [] 0 0)).map
        (List.map (fun p => (p.1, p.2.flip))) :=
  overlap_with_symm _ _ rfl (Or.inr (by decide))

@[simp] theorem new_chars (c : List (List Char)) (mn mx : Nat) :
    (Grapheme.new c mn mx).chars = c := rfl

@[simp] theorem new_repetitions (c : List (List Char)) (mn mx : Nat) :
    (Grapheme.new c mn mx).repetitions = [] := rfl

@[simp] theorem new_min (c : List (List Char)) (mn mx : Nat) :
    (Grapheme.new c mn mx).min = mn := rfl

@[simp] theorem new_max (c : List (List Char)) (mn mx : Nat) :
    (Grapheme.new c mn mx).max = mx := rfl

/-- `n` is one of the occurrence counts covered by some piece of `l`. -/
def IntervalCovered (l : List (Grapheme × GraphemeOverlapState)) (n : Nat) :
    Prop :=
  ∃ p ∈ l, p.1.min ≤ n ∧ n ≤ p.1.max

/-- The partition property claimed for `overlap_with`: at most three pieces,
each non-empty with the input `chars` and no `repetitions`, listed in
ascending order of their `min`, pairwise disjoint, and jointly covering
exactly the union `[g1.min, g1.max] ∪ [g2.min, g2.max]`. -/
def OverlapPartition (g1 g2 : Grapheme)
    (l : List (Grapheme × GraphemeOverlapState)) : Prop :=
  l.length ≤ 3 ∧
  (∀ p ∈ l, p.1.min ≤ p.1.max ∧ p.1.chars = g1.chars ∧
    p.1.repetitions = []) ∧
  l.Chain' (fun a b => a.1.min < b.1.min) ∧
  l.Pairwise (fun a b => a.1.max < b.1.min) ∧
  ∀ n : Nat, IntervalCovered l n ↔
    (g1.min ≤ n ∧ n ≤ g1.max) ∨ (g2.min ≤ n ∧ n ≤ g2.max)

theorem overlap_lower_spec (g1 g2 : Grapheme) (hc : g1.chars = g2.chars)
    (hns : g1.sortsAfter g2 = false) (h1 : g1.min ≤ g1.max)
    (h2 : g2.min ≤ g2.max) :
    ∃ l, g1.overlap_with g2 = some l ∧ OverlapPartition g1 g2 l := by
  have hord : g1.min < g2.min ∨ (g1.min = g2.min ∧ g1.max ≤ g2.max) := by
    simp [Grapheme.sortsAfter] at hns
    omega
  rw [overlap_with_eq]
  simp only [hc, ne_eq, not_true_eq_false, if_false, hns, Bool.false_eq_true]
  refine ⟨_, rfl, ?_⟩
  unfold OverlapPartition IntervalCovered
  split_ifs with hA hB hC hD hC' hD' <;>
    first
      | (exfalso; omega)
      | (refine ⟨by simp, by simp [hc]; try omega,
          by simp [List.chain'_cons]; try omega,
          by simp [List.pairwise_cons]; try omega,
          fun n => by simp; try omega⟩)

theorem OverlapPartition.flipMap {g1 g2 : Grapheme}
    {l : List (Grapheme × GraphemeOverlapState)} (hc : g1.chars = g2.chars)
    (h : OverlapPartition g2 g1 l) :
    OverlapPartition g1 g2 (l.map (fun p => (p.1, p.2.flip))) := by
  obtain ⟨hlen, hmem, hchain, hpair, hcov⟩ := h
  refine ⟨by simpa using hlen, ?_, ?_, ?_, ?_⟩
  · intro p hp
    rw [List.mem_map] at hp
    obtain ⟨q, hq, rfl⟩ := hp
    obtain ⟨a, b, c⟩ := hmem q hq
    exact ⟨a, b.trans hc.symm, c⟩
  · rw [List.chain'_map]
    exact hchain
  · rw [List.pairwise_map]
    exact hpair
  · intro n
    have heq : IntervalCovered (l.map (fun p => (p.1, p.2.flip))) n ↔
        IntervalCovered l n := by
      constructor
      · rintro ⟨p, hp, h⟩
        rw [List.mem_map] at hp
        obtain ⟨q, hq, rfl⟩ := hp
        exact ⟨q, hq, h⟩
      · rintro ⟨q, hq, h⟩
        exact ⟨(q.1, q.2.flip), List.mem_map_of_mem _ hq, h⟩
    rw [heq, hcov n]
    exact or_comm

/-- **C1.** For identical `chars` and valid ranges, `overlap_with` returns a
list of at most three non-empty, range-ordered, pairwise disjoint pieces —
each a fresh grapheme with the same `chars` and empty `repetitions` — whose
union of covered occurrence integers is the union of the two input ranges. -/
theorem overlap_with_partition (g1 g2 : Grapheme) (hc : g1.chars = g2.chars)
    (h1 : g1.min ≤ g1.max) (h2 : g2.min ≤ g2.max) :
    ∃ l, g1.overlap_with g2 = some l ∧ OverlapPartition g1 g2 l := by
  by_cases hs : g1.sortsAfter g2
  · obtain ⟨l, hl, hP⟩ :=
      overlap_lower_spec g2 g1 hc.symm (sortsAfter_asymm hs) h2 h1
    refine ⟨l.map (fun p => (p.1, p.2.flip)), ?_, hP.flipMap hc⟩
    rw [overlap_with_eq]
    simp [hc, hs, hl]
  · exact overlap_lower_spec g1 g2 hc
      (by simpa using hs) h1 h2

/-- Witness for **C1** at `chars = ["a"]`, ranges `(0,10)` and `(5,15)`. -/
theorem overlap_with_partition_witness :
    ∃ l, (Grapheme.mk [['a']] [] 0 10).overlap_with
        (Grapheme.mk [['a']] [] 5 15) = some l ∧
      OverlapPartition (Grapheme.mk [['a']] [] 0 10)
        (Grapheme.mk [['a']] [] 5 15) l :=
  overlap_with_partition _ _ rfl (by decide) (by decide)

/-- `CHARS_TO_ESCAPE` from `src/char/grapheme.rs` (lines 24–26). -/
def CHARS_TO_ESCAPE : List Char :=
  ['(', ')', '[', ']', '{', '}', '+', '*', '-', '.', '?', '|', '^', '$']

/-- Most-significant-first digit rendering with explicit fuel (the same
recursion as `Nat.toDigits`; the callers below pass enough fuel for every
`u32`, so the fuel never runs out). -/
def digitsCore (base : Nat) : Nat → Nat → List Char → List Char
  | 0, _, ds => ds
  | fuel + 1, n, ds =>
    let d := Nat.digitChar (n % base)
    if n / base = 0 then d :: ds
    else digitsCore base fuel (n / base) (d :: ds)

/-- Rust's `{:x}` formatting of a `u32`: lowercase hex, no padding. -/
def hexChars (n : Nat) : List Char := digitsCore 16 8 n []

/-- Rust's `{}` (decimal) formatting of a `u32`. -/
def decChars (n : Nat) : List Char := digitsCore 10 10 n []

/-- `Grapheme::convert_to_surrogate_pair` from `src/char/grapheme.rs`
(lines 161–166): `encode_utf16` of an astral scalar yields the high and low
surrogate, each formatted as a lowercase-hex `\u{...}` escape. -/
def convert_to_surrogate_pair (c : Char) : List Char :=
  let v := c.toNat - 0x10000
  let hi := 0xD800 + v / 0x400
  let lo := 0xDC00 + v % 0x400
  ['\\', 'u', '{'] ++ hexChars hi ++ ['}'] ++
    ['\\', 'u', '{'] ++ hexChars lo ++ ['}']

/-- Rust's `char::escape_unicode` rendering (lowercase hex, no padding),
as used by `Grapheme::escape`. -/
def escapeUnicode (c : Char) : List Char :=
  ['\\', 'u', '{'] ++ hexChars c.toNat ++ ['}']

/-- `Grapheme::escape` from `src/char/grapheme.rs` (lines 151–159).  The Rust
range `'\u{10000}'..'\u{10ffff}'` is half-open: it contains `c` iff
`0x10000 ≤ c < 0x10FFFF`. -/
def Grapheme.escape (c : Char) (use_surrogate_pairs : Bool) : List Char :=
  if charIsAscii c then
    [c]
  else if use_surrogate_pairs && (0x10000 ≤ c.toNat && c.toNat < 0x10FFFF) then
    convert_to_surrogate_pair c
  else
    escapeUnicode c

/-- `String::replace` with a single-character pattern, as used by
`escape_regexp_symbols`: every occurrence of the character is replaced by the
replacement string. -/
def replaceChar (s : List Char) (pat : Char) (rep : List Char) : List Char :=
  s.flatMap (fun c => if c = pat then rep else [c])

/-- The per-fragment body of `Grapheme::escape_regexp_symbols`
(`src/char/grapheme.rs` lines 126–143): escape each metacharacter, then the
three control characters, then special-case a fragment equal to a lone
backslash. -/
def escapeFragment (frag : List Char) : List Char :=
  let c1 := CHARS_TO_ESCAPE.foldl
    (fun acc ch => replaceChar acc ch ['\\', ch]) frag
  let c2 := replaceChar (replaceChar (replaceChar c1 '\n' ['\\', 'n'])
    '\r' ['\\', 'r']) '\t' ['\\', 't']
  if c2 = ['\\'] then ['\\', '\\'] else c2

/-- `Grapheme::escape_non_ascii_chars` from `src/char/grapheme.rs`
(lines 106–116), on the `chars` fragment list. -/
def escape_non_ascii_chars (chars : List (List Char)) (sp : Bool) :
    List (List Char) :=
  chars.map (fun frag => frag.flatMap (fun c => Grapheme.escape c sp))

/-- `Grapheme::escape_regexp_symbols` from `src/char/grapheme.rs`
(lines 118–149), on the `chars` fragment list. -/
def escape_regexp_symbols (chars : List (List Char))
    (is_non_ascii_char_escaped is_astral_converted : Bool) :
    List (List Char) :=
  let cs := chars.map escapeFragment
  if is_non_ascii_char_escaped then
    escape_non_ascii_chars cs is_astral_converted
  else cs

theorem replaceChar_id {s : List Char} {pat : Char} {rep : List Char}
    (h : pat ∉ s) : replaceChar s pat rep = s := by
  induction s with
  | nil => rfl
  | cons c cs ih =>
    simp only [List.mem_cons, not_or] at h
    simp [replaceChar, List.flatMap_cons, Ne.symm h.1]
    exact ih h.2

theorem escapeFragment_id {frag : List Char}
    (hm : ∀ ch ∈ frag, ch ∉ CHARS_TO_ESCAPE ∧ ch ≠ '\n' ∧ ch ≠ '\r' ∧
      ch ≠ '\t')
    (hb : frag ≠ ['\\']) : escapeFragment frag = frag := by
  unfold escapeFragment
  have hfold : CHARS_TO_ESCAPE.foldl
      (fun acc ch => replaceChar acc ch ['\\', ch]) frag = frag := by
    have : ∀ pats : List Char, (∀ p ∈ pats, p ∉ frag) →
        pats.foldl (fun acc ch => replaceChar acc ch ['\\', ch]) frag =
          frag := by
      intro pats
      induction pats with
      | nil => intro _; rfl
      | cons p ps ih =>
        intro h
        rw [List.foldl_cons,
          replaceChar_id (h p (List.mem_cons_self p ps))]
        exact ih (fun q hq => h q (List.mem_cons_of_mem p hq))
    exact this CHARS_TO_ESCAPE
      (fun p hp hmem => (hm p hmem).1 hp)
  simp only [hfold]
  rw [replaceChar_id (fun h => ((hm _ h).2.1 rfl)),
    replaceChar_id (fun h => ((hm _ h).2.2.1 rfl)),
    replaceChar_id (fun h => ((hm _ h).2.2.2 rfl)),
    if_neg hb]

theorem map_id_of_mem {α : Type} {l : List α} {f : α → α}
    (h : ∀ a ∈ l, f a = a) : l.map f = l := by
  induction l with
  | nil => rfl
  | cons a as ih =>
    rw [List.map_cons, h a (List.mem_cons_self a as),
      ih (fun b hb => h b (List.mem_cons_of_mem a hb))]

theorem flatMap_singleton_id {frag : List Char} {f : Char → List Char}
    (h : ∀ c ∈ frag, f c = [c]) : frag.flatMap f = frag := by
  induction frag with
  | nil => rfl
  | cons c cs ih =>
    rw [List.flatMap_cons, h c (List.mem_cons_self c cs),
      ih (fun d hd => h d (List.mem_cons_of_mem c hd))]
    rfl

/-- **C8 (amended).** `escape_regexp_symbols` leaves every fragment unchanged
when no fragment contains a metacharacter, newline, carriage return or tab
and no fragment is a lone backslash — for every setting of the two flags,
provided that the non-ASCII-escape flag is off or every character is ASCII. -/
theorem escape_regexp_symbols_id (chars : List (List Char)) (f1 f2 : Bool)
    (hm : ∀ frag ∈ chars, ∀ ch ∈ frag, ch ∉ CHARS_TO_ESCAPE ∧ ch ≠ '\n' ∧
      ch ≠ '\r' ∧ ch ≠ '\t')
    (hb : ∀ frag ∈ chars, frag ≠ ['\\'])
    (ha : f1 = false ∨ ∀ frag ∈ chars, ∀ ch ∈ frag, charIsAscii ch) :
    escape_regexp_symbols chars f1 f2 = chars := by
  unfold escape_regexp_symbols
  have hmap : chars.map escapeFragment = chars :=
    map_id_of_mem
      (fun frag hfrag => escapeFragment_id (hm frag hfrag) (hb frag hfrag))
  rw [hmap]
  rcases ha with rfl | ha
  · simp
  · cases f1 with
    | false => simp
    | true =>
      simp only [if_true]
      unfold escape_non_ascii_chars
      exact map_id_of_mem (fun frag hfrag =>
        flatMap_singleton_id
          (fun c hc => by simp [Grapheme.escape, ha frag hfrag c hc]))

/-- Witness for **C8** at `chars = ["ab"]` with both flags on. -/
theorem escape_regexp_symbols_id_witness :
    escape_regexp_symbols [['a', 'b']] true true = [['a', 'b']] :=
  escape_regexp_symbols_id _ _ _ (by decide) (by decide)
    (Or.inr (by decide))

/-- Counterexample to **C8** as stated: the fragment `"é"` contains no
metacharacter, no control character and is not a lone backslash, yet with the
non-ASCII-escape flag on it is rewritten to `\u{e9}`. -/
theorem escape_regexp_symbols_counterexample :
    (∀ ch ∈ [Char.ofNat 0xE9], ch ∉ CHARS_TO_ESCAPE ∧ ch ≠ '\n' ∧
      ch ≠ '\r' ∧ ch ≠ '\t') ∧
    [Char.ofNat 0xE9] ≠ ['\\'] ∧
    escape_regexp_symbols [[Char.ofNat 0xE9]] true false ≠
      [[Char.ofNat 0xE9]] := by
  refine ⟨by decide, by decide, ?_⟩
  decide

/-- **C7 (amended).** `Grapheme::escape`: ASCII characters pass through
unchanged; with surrogate pairs enabled, a character with
`0x10000 ≤ c < 0x10FFFF` (the half-open astral range tested by the code —
`U+10FFFF` itself is excluded) becomes the two lowercase-hex `\u{...}`
escapes of its UTF-16 surrogate pair; every other non-ASCII character
becomes the single `\u{...}` escape of its scalar value.  In particular
`U+1F600` becomes `\u{d83d}\u{de00}` with surrogate pairs and `\u{1f600}`
without. -/
theorem escape_spec :
    (∀ (c : Char) (sp : Bool),
      Grapheme.escape c sp =
        if c.toNat ≤ 0x7F then [c]
        else if sp = true ∧ 0x10000 ≤ c.toNat ∧ c.toNat < 0x10FFFF then
          convert_to_surrogate_pair c
        else escapeUnicode c) ∧
    Grapheme.escape (Char.ofNat 0x1F600) true =
      ['\\', 'u', '{', 'd', '8', '3', 'd', '}',
       '\\', 'u', '{', 'd', 'e', '0', '0', '}'] ∧
    Grapheme.escape (Char.ofNat 0x1F600) false =
      ['\\', 'u', '{', '1', 'f', '6', '0', '0', '}'] := by
  refine ⟨?_, by decide, by decide⟩
  intro c sp
  unfold Grapheme.escape charIsAscii
  by_cases hA : c.toNat ≤ 0x7F
  · simp [hA]
  · cases sp with
    | false => simp [hA]
    | true =>
      by_cases h1 : 0x10000 ≤ c.toNat
      · by_cases h2 : c.toNat < 0x10FFFF
        · simp [hA, h1, h2]
        · simp [hA, h1, h2]
      · simp [hA, h1]

/-- Counterexample to **C7** as stated: `U+10FFFF` lies in the astral plane
(`≥ 0x10000`) yet with surrogate pairs enabled the code emits the single
scalar escape, not the surrogate pair. -/
theorem escape_astral_counterexample :
    0x10000 ≤ (Char.ofNat 0x10FFFF).toNat ∧
    Grapheme.escape (Char.ofNat 0x10FFFF) true =
      escapeUnicode (Char.ofNat 0x10FFFF) ∧
    Grapheme.escape (Char.ofNat 0x10FFFF) true ≠
      convert_to_surrogate_pair (Char.ofNat 0x10FFFF) := by
  refine ⟨by decide, by decide, by decide⟩

/-- The four options of `RegExpConfig` consulted by this core. -/
structure RegExpConfig where
  is_capturing_group_enabled : Bool
  is_output_colorized : Bool
  is_non_ascii_char_escaped : Bool
  is_astral_code_point_converted_to_surrogate : Bool

/-- `Grapheme::char_count` from `src/char/grapheme.rs` (lines 93–104):
with the flag set, the length of the join of every fragment's per-character
escape (surrogate pairs off); otherwise the total number of characters. -/
def Grapheme.char_count (g : Grapheme) (is_non_ascii_char_escaped : Bool) :
    Nat :=
  if is_non_ascii_char_escaped then
    ((g.chars.map (fun frag =>
      frag.flatMap (fun c => Grapheme.escape c false))).flatten).length
  else
    (g.chars.map List.length).sum

mutual

/-- `impl Display for Grapheme` from `src/char/grapheme.rs` (lines 244–313),
with colorization off: the plain text of each `ColorizableString` token.
Modelled from the spec: the colorized styling of `ColorizableString` lives
outside `src/`; §4.2 fixes the plain tokens — braces, comma, decimal numbers,
and group markers `(` / `(?:` per the capturing-group toggle — and every
claim below is stated at `is_output_colorized = false`. -/
def Grapheme.display (cfg : RegExpConfig) : Grapheme → List Char
  | .mk chars reps mn mx =>
    let is_single_char :=
      (Grapheme.mk chars reps mn mx).char_count false = 1 ∨
        (chars.length = 1 ∧ (chars.headD []).count '\\' = 1)
    let is_range := mn < mx
    let is_repetition := 1 < mn
    let value :=
      if reps.isEmpty then chars.flatten else Grapheme.displayList cfg reps
    let left_parenthesis :=
      if cfg.is_capturing_group_enabled then ['('] else ['(', '?', ':']
    if ¬is_range ∧ is_repetition ∧ is_single_char then
      value ++ '{' :: decChars mn ++ ['}']
    else if ¬is_range ∧ is_repetition ∧ ¬is_single_char then
      left_parenthesis ++ value ++ ')' :: '{' :: decChars mn ++ ['}']
    else if is_range ∧ is_single_char then
      value ++ '{' :: decChars mn ++ ',' :: decChars mx ++ ['}']
    else if is_range ∧ ¬is_single_char then
      left_parenthesis ++ value ++
        ')' :: '{' :: decChars mn ++ ',' :: decChars mx ++ ['}']
    else value

/-- `self.repetitions.iter().map(|it| it.to_string()).join("")`. -/
def Grapheme.displayList (cfg : RegExpConfig) : List Grapheme → List Char
  | [] => []
  | g :: gs => Grapheme.display cfg g ++ Grapheme.displayList cfg gs

end

/-- **C4.** The quantifier table of `Display for Grapheme` with colorization
and capturing groups disabled: `a` with `(3,3)` renders `a{3}`, with `(2,5)`
renders `a{2,5}`; `ab` with `(4,4)` renders `(?:ab){4}`; `a` with `(1,1)`
renders bare `a` — branches selected by `is_range = (min < max)`,
`is_repetition = (min > 1)` and the single-character test. -/
theorem display_quantifier_table :
    (Grapheme.mk [['a']] [] 3 3).display ⟨false, false, false, false⟩ =
      ['a', '{', '3', '}'] ∧
    (Grapheme.mk [['a']] [] 2 5).display ⟨false, false, false, false⟩ =
      ['a', '{', '2', ',', '5', '}'] ∧
    (Grapheme.mk [['a', 'b']] [] 4 4).display ⟨false, false, false, false⟩ =
      ['(', '?', ':', 'a', 'b', ')', '{', '4', '}'] ∧
    (Grapheme.mk [['a']] [] 1 1).display ⟨false, false, false, false⟩ =
      ['a'] := by
  refine ⟨?_, ?_, ?_, ?_⟩ <;> rfl

/-- **C10.** A grapheme with `min = max = 0` renders exactly like one with
`min = max = 1`: both fall through to the bare-value branch, so no `{0}`
quantifier is ever emitted. -/
theorem display_zero_zero_eq_one_one (cfg : RegExpConfig)
    (chars : List (List Char)) (reps : List Grapheme) :
    (Grapheme.mk chars reps 0 0).display cfg =
      (Grapheme.mk chars reps 1 1).display cfg := by
  rfl

/-- `get_codepoint_position` from `src/ast/format.rs` (lines 45–47):
the index of `c` in `CharRange::all()`, which enumerates all Unicode scalar
values in ascending order skipping the surrogate block
`0xD800..=0xDFFF`; the position is therefore `c` itself below the block and
`c - 0x800` above it. -/
def get_codepoint_position (c : Char) : Nat :=
  if c.toNat < 0xD800 then c.toNat else c.toNat - 0x800

/-- Adjacent pairs of a list, as Itertools' `tuple_windows` of width 2. -/
def windows2 {α : Type} (l : List α) : List (α × α) := l.zip l.tail

/-- The loop body of `format_character_class` (`src/ast/format.rs`
lines 116–129), as the step of a fold over `tuple_windows`: state is
`(subsets, subset)`, pushes become appends. -/
def classStep (st : List (List (List Char)) × List (List Char))
    (p : (List Char × Nat) × (List Char × Nat)) :
    List (List (List Char)) × List (List Char) :=
  let (subsets, subset) := st
  let ((first_c, first_pos), (second_c, second_pos)) := p
  let subset := if subset.isEmpty then subset ++ [first_c] else subset
  if second_pos = first_pos + 1 then (subsets, subset ++ [second_c])
  else (subsets ++ [subset], [second_c])

/-- The per-character class-context escaping of `format_character_class`
(`src/ast/format.rs` lines 91–107). -/
def escapeClassChar (c : Char) : List Char :=
  if ['[', ']', '\\', '-', '^'].contains c then ['\\', c]
  else if c = '\n' then ['\\', 'n']
  else if c = '\r' then ['\\', 'r']
  else if c = '\t' then ['\\', 't']
  else [c]

/-- The colorized hyphen of `format_character_class`:
`"\u{1b}[1;36m-\u{1b}[0m"` when colorized, `"-"` otherwise. -/
def classHyphen (colorized : Bool) : List Char :=
  if colorized then
    ['\x1b', '[', '1', ';', '3', '6', 'm', '-', '\x1b', '[', '0', 'm']
  else ['-']

/-- `format_character_class` from `src/ast/format.rs` (lines 86–166).
The `char_set` argument is the ascending element list of the `BTreeSet`.
`char_class_strs` collects, per subset, either each element string (length
at most 2) or the single `first-last` string; the final `join("")` is the
flatten. -/
def format_character_class (char_set : List Char) (colorized : Bool) :
    List Char :=
  let escaped_char_set := char_set.map escapeClassChar
  let char_positions := char_set.map get_codepoint_position
  let st := (windows2 (escaped_char_set.zip char_positions)).foldl
    classStep ([], [])
  let subsets := st.1 ++ [st.2]
  let char_class_strs := subsets.flatMap (fun subset =>
    if subset.length ≤ 2 then subset
    else [subset.headD [] ++ classHyphen colorized ++ subset.getLastD []])
  let joined_classes := char_class_strs.flatten
  if colorized then
    ['\x1b', '[', '1', ';', '3', '6', 'm', '[', '\x1b', '[', '0', 'm'] ++
      joined_classes ++
      ['\x1b', '[', '1', ';', '3', '6', 'm', ']', '\x1b', '[', '0', 'm']
  else '[' :: joined_classes ++ [']']

/-- **C9.** Rendering a character class with exactly one member emits the
empty class `[]`: the run-building loop walks adjacent pairs, so the sole
member is dropped. -/
theorem format_character_class_singleton (c : Char) :
    format_character_class [c] false = ['[', ']'] := by
  rfl

/-- Modelled from the spec (§4.5, claim C6): extend the current maximal run
while the next member is ordinal-consecutive with the previous one, otherwise
close the run and start a new one. -/
def specRunsGo (run : List Char) (x : Char) : List Char → List (List Char)
  | [] => [run]
  | y :: t =>
    if get_codepoint_position y = get_codepoint_position x + 1 then
      specRunsGo (run ++ [y]) y t
    else run :: specRunsGo [y] y t

/-- Modelled from the spec (§4.5, claim C6): the partition of the member
list into maximal runs of ordinal-consecutive codepoints. -/
def specRuns : List Char → List (List Char)
  | [] => []
  | x :: t => specRunsGo [x] x t

/-- Modelled from the spec (§4.5, claim C6): escape each member for class
context, emit each maximal run of length at most 2 as the individual
characters and each longer run as `first-last`, and wrap in brackets. -/
def specClassRender (char_set : List Char) : List Char :=
  '[' :: ((specRuns char_set).flatMap (fun run =>
    if run.length ≤ 2 then run.flatMap escapeClassChar
    else escapeClassChar (run.headD ' ') ++
      '-' :: escapeClassChar (run.getLastD ' '))) ++ [']']

theorem foldl_classStep_eq (t : List Char) :
    ∀ (x : Char) (run : List Char) (ss : List (List (List Char))),
      run ≠ [] →
      (let st := (windows2 ((x :: t).map
          (fun c => (escapeClassChar c, get_codepoint_position c)))).foldl
          classStep (ss, run.map escapeClassChar)
       st.1 ++ [st.2]) =
        ss ++ (specRunsGo run x t).map (List.map escapeClassChar) := by
  induction t with
  | nil =>
    intro x run ss _
    simp [windows2, specRunsGo]
  | cons y t ih =>
    intro x run ss hrun
    have hw : windows2 ((x :: y :: t).map
        (fun c => (escapeClassChar c, get_codepoint_position c))) =
        ((escapeClassChar x, get_codepoint_position x),
         (escapeClassChar y, get_codepoint_position y)) ::
          windows2 ((y :: t).map
            (fun c => (escapeClassChar c, get_codepoint_position c))) := rfl
    rw [hw, List.foldl_cons]
    have hne : (run.map escapeClassChar).isEmpty = false := by
      cases run with
      | nil => exact absurd rfl hrun
      | cons c cs => rfl
    by_cases hadj : get_codepoint_position y = get_codepoint_position x + 1
    · have hstep : classStep (ss, run.map escapeClassChar)
          ((escapeClassChar x, get_codepoint_position x),
           (escapeClassChar y, get_codepoint_position y)) =
          (ss, (run ++ [y]).map escapeClassChar) := by
        simp [classStep, hne, hadj]
      rw [hstep]
      rw [ih y (run ++ [y]) ss (by simp)]
      simp [specRunsGo, hadj]
    · have hstep : classStep (ss, run.map escapeClassChar)
          ((escapeClassChar x, get_codepoint_position x),
           (escapeClassChar y, get_codepoint_position y)) =
          (ss ++ [run.map escapeClassChar], [y].map escapeClassChar) := by
        simp [classStep, hne, hadj]
      rw [hstep]
      rw [ih y [y] (ss ++ [run.map escapeClassChar]) (by simp)]
      simp [specRunsGo, hadj]

theorem specRunsGo_ne_nil (t : List Char) :
    ∀ (run : List Char) (x : Char), run ≠ [] →
      ∀ r ∈ specRunsGo run x t, r ≠ [] := by
  induction t with
  | nil =>
    intro run x hrun r hr
    simp [specRunsGo] at hr
    exact hr ▸ hrun
  | cons y t ih =>
    intro run x hrun r hr
    rw [specRunsGo] at hr
    by_cases hadj : get_codepoint_position y = get_codepoint_position x + 1
    · rw [if_pos hadj] at hr
      exact ih (run ++ [y]) y (by simp) r hr
    · rw [if_neg hadj] at hr
      rcases List.mem_cons.mp hr with rfl | hr
      · exact hrun
      · exact ih [y] y (by simp) r hr

theorem headD_map {α β : Type} {r : List α} (f : α → β) (d1 : β) (d2 : α)
    (h : r ≠ []) : (r.map f).headD d1 = f (r.headD d2) := by
  cases r with
  | nil => exact absurd rfl h
  | cons c cs => rfl

theorem getLastD_map {α β : Type} (f : α → β) :
    ∀ (r : List α) (d1 : β) (d2 : α), r ≠ [] →
      (r.map f).getLastD d1 = f (r.getLastD d2)
  | [], _, _, h => absurd rfl h
  | [_], _, _, _ => rfl
  | c :: c2 :: cs, d1, d2, _ => by
    rw [List.map_cons, List.getLastD_cons, List.getLastD_cons]
    exact getLastD_map f (c2 :: cs) (f c) c (by simp)

theorem runs_emit (runs : List (List Char)) (hne : ∀ r ∈ runs, r ≠ []) :
    ((runs.map (List.map escapeClassChar)).flatMap (fun subset =>
      if subset.length ≤ 2 then subset
      else [subset.headD [] ++ classHyphen false ++
        subset.getLastD []])).flatten =
    runs.flatMap (fun run =>
      if run.length ≤ 2 then run.flatMap escapeClassChar
      else escapeClassChar (run.headD ' ') ++
        '-' :: escapeClassChar (run.getLastD ' ')) := by
  induction runs with
  | nil => rfl
  | cons r rs ih =>
    rw [List.map_cons, List.flatMap_cons, List.flatMap_cons,
      List.flatten_append,
      ih (fun q hq => hne q (List.mem_cons_of_mem r hq))]
    congr 1
    have hr : r ≠ [] ∨ r.length ≤ 2 := by
      by_cases h : r = []
      · exact Or.inr (by simp [h])
      · exact Or.inl h
    by_cases hlen : r.length ≤ 2
    · rw [if_pos (by simpa using hlen), if_pos hlen]
      simp [List.flatMap_def]
    · have hrne : r ≠ [] := by
        intro h
        exact hlen (by simp [h])
      rw [if_neg (by simpa using hlen), if_neg hlen]
      simp only [List.flatten_cons, List.flatten_nil, List.append_nil]
      rw [headD_map escapeClassChar [] ' ' hrne,
        getLastD_map escapeClassChar r [] ' ' hrne]
      simp [classHyphen]

/-- **C6 (amended).** For a scalar-value-sorted class of at least two
members, `format_character_class` (colorization off) renders exactly the
spec's description: class-context escaping, maximal runs of
ordinal-consecutive codepoints, runs of length at most 2 emitted as
individual characters, longer runs as `first-last`, all wrapped in
brackets.  In particular `{a,b,c,x,z}` renders `[a-cxz]` and `{a,b}`
renders `[ab]`.  (A single-member class instead renders `[]` — see the
counterexample — so the claim holds only from two members up.) -/
theorem format_character_class_runs :
    (∀ char_set : List Char, List.Pairwise (· < ·) char_set →
      2 ≤ char_set.length →
      format_character_class char_set false = specClassRender char_set) ∧
    format_character_class ['a', 'b', 'c', 'x', 'z'] false =
      ['[', 'a', '-', 'c', 'x', 'z', ']'] ∧
    format_character_class ['a', 'b'] false = ['[', 'a', 'b', ']'] := by
  refine ⟨?_, rfl, rfl⟩
  intro char_set _ hlen
  match char_set, hlen with
  | a :: b :: t, _ =>
    unfold format_character_class specClassRender
    simp only [Bool.false_eq_true, if_false]
    have hz : ((a :: b :: t).map escapeClassChar).zip
        ((a :: b :: t).map get_codepoint_position) =
        (a :: b :: t).map
          (fun c => (escapeClassChar c, get_codepoint_position c)) := by
      rw [List.zip_map']
    rw [hz]
    have hw : windows2 ((a :: b :: t).map
        (fun c => (escapeClassChar c, get_codepoint_position c))) =
        ((escapeClassChar a, get_codepoint_position a),
         (escapeClassChar b, get_codepoint_position b)) ::
          windows2 ((b :: t).map
            (fun c => (escapeClassChar c, get_codepoint_position c))) := rfl
    rw [hw, List.foldl_cons]
    have hruns : specRuns (a :: b :: t) = specRunsGo [a] a (b :: t) := rfl
    rw [hruns, specRunsGo]
    by_cases hadj : get_codepoint_position b = get_codepoint_position a + 1
    · have hstep : classStep ([], []) ((escapeClassChar a,
          get_codepoint_position a),
          (escapeClassChar b, get_codepoint_position b)) =
          ([], ([a, b]).map escapeClassChar) := by
        simp [classStep, hadj]
      rw [hstep, if_pos hadj]
      have := foldl_classStep_eq t b [a, b] [] (by simp)
      simp only [] at this
      rw [this]
      simp only [List.nil_append]
      rw [runs_emit _ (specRunsGo_ne_nil t [a, b] b (by simp))]
      simp
    · have hstep : classStep ([], []) ((escapeClassChar a,
          get_codepoint_position a),
          (escapeClassChar b, get_codepoint_position b)) =
          ([[a].map escapeClassChar], [b].map escapeClassChar) := by
        simp [classStep, hadj]
      rw [hstep, if_neg hadj]
      have := foldl_classStep_eq t b [b] [[a].map escapeClassChar] (by simp)
      simp only [] at this
      rw [this]
      have hsub : ([[a].map escapeClassChar] : List (List (List Char))) ++
          (specRunsGo [b] b t).map (List.map escapeClassChar) =
          ([a] :: specRunsGo [b] b t).map (List.map escapeClassChar) := by
        simp
      rw [hsub, runs_emit _ ?hne]
      case hne =>
        intro r hr
        rcases List.mem_cons.mp hr with rfl | hr
        · simp
        · exact specRunsGo_ne_nil t [b] b (by simp) r hr

/-- Witness for **C6** at the sorted five-member class `{a,b,c,x,z}`. -/
theorem format_character_class_runs_witness :
    format_character_class ['a', 'b', 'c', 'x', 'z'] false =
      specClassRender ['a', 'b', 'c', 'x', 'z'] :=
  format_character_class_runs.1 _ (by decide) (by decide)

/-- Counterexample to **C6** as stated: a single-member class drops its sole
member (`{a}` renders `[]`, not `[a]` as the run description demands). -/
theorem format_character_class_runs_counterexample :
    format_character_class ['a'] false = ['[', ']'] ∧
    specClassRender ['a'] = ['[', 'a', ']'] ∧
    format_character_class ['a'] false ≠ specClassRender ['a'] :=
  ⟨rfl, rfl, by decide⟩

/-- The five-variant `Expression` grammar of `src/ast/`.  The `Quantifier`
of a `Repetition` is an external type of which only the `Display` rendering
is used, so it is modelled by that rendering. -/
inductive Expression where
  | Alternation (options : List Expression)
  | CharacterClass (char_set : List Char)
  | Concatenation (e1 e2 : Expression)
  | Literal (cluster : List Grapheme)
  | Repetition (inner : Expression) (quantifier : List Char)

/-- Modelled from the spec (§3): the precedence classes, ordered
alternation < concatenation < repetition < atomic (character class /
literal).  (`Expression::precedence` itself is not among the shown
sources.) -/
def precedence : Expression → Nat
  | .Alternation _ => 0
  | .Concatenation _ _ => 1
  | .Repetition _ _ => 2
  | .CharacterClass _ => 3
  | .Literal _ => 3

/-- Modelled from the spec (glossary, "single codepoint"): a character
class, or a literal cluster whose rendered atomic form is a single
character.  (`Expression::is_single_codepoint` itself is not among the
shown sources.) -/
def is_single_codepoint : Expression → Bool
  | .CharacterClass _ => true
  | .Literal cluster =>
    match cluster with
    | [g] => g.char_count false == 1 && g.min == 1 && g.max == 1
    | _ => false
  | _ => false

/-- `"("` or `"(?:"` per the capturing-group toggle, as computed at the top
of `format_alternation`, `format_concatenation` and `format_repetition`. -/
def leftParenthesis (cfg : RegExpConfig) : List Char :=
  if cfg.is_capturing_group_enabled then ['('] else ['(', '?', ':']

/-- `Grapheme::escape_regexp_symbols` as a whole-grapheme transformation:
the `chars` are rewritten in place, `repetitions` and bounds are kept. -/
def Grapheme.escape_regexp_symbols (g : Grapheme) (f1 f2 : Bool) :
    Grapheme :=
  Grapheme.mk (Grex.escape_regexp_symbols g.chars f1 f2) g.repetitions
    g.min g.max

/-- `format_literal` from `src/ast/format.rs` (lines 206–237): clone each
grapheme, escape it (each repetition separately when present, the grapheme
itself otherwise) and concatenate the `Display` renderings. -/
def format_literal (cfg : RegExpConfig) (cluster : List Grapheme) :
    List Char :=
  (cluster.map (fun g =>
    (if g.repetitions.isEmpty then
      g.escape_regexp_symbols cfg.is_non_ascii_char_escaped
        cfg.is_astral_code_point_converted_to_surrogate
    else
      Grapheme.mk g.chars
        (g.repetitions.map (fun r =>
          r.escape_regexp_symbols cfg.is_non_ascii_char_escaped
            cfg.is_astral_code_point_converted_to_surrogate))
        g.min g.max).display cfg)).flatten

/-- `impl Display for Expression` from `src/ast/format.rs`, dispatching to
`format_alternation` / `format_character_class` / `format_concatenation` /
`format_literal` / `format_repetition`.  The ANSI sequences are the exact
string literals of the source (green `1;32` group markers, red `1;31` pipe,
magenta `1;35` quantifier). -/
def render (cfg : RegExpConfig) : Expression → List Char
  | .Alternation options =>
    let pipe :=
      if cfg.is_output_colorized then
        ['\x1b', '[', '1', ';', '3', '1', 'm', '|', '\x1b', '[', '0', 'm']
      else ['|']
    List.intercalate pipe (options.attach.map (fun o =>
      if precedence o.1 < precedence (.Alternation options) ∧
          is_single_codepoint o.1 = false then
        if cfg.is_output_colorized then
          ['\x1b', '[', '1', ';', '3', '2', 'm'] ++ leftParenthesis cfg ++
            ['\x1b', '[', '0', 'm'] ++ render cfg o.1 ++
            ['\x1b', '[', '1', ';', '3', '2', 'm', ')', '\x1b', '[', '0',
              'm']
        else leftParenthesis cfg ++ render cfg o.1 ++ [')']
      else render cfg o.1))
  | .CharacterClass char_set =>
    format_character_class char_set cfg.is_output_colorized
  | .Concatenation e1 e2 =>
    (if precedence e1 < precedence (.Concatenation e1 e2) ∧
        is_single_codepoint e1 = false then
      if cfg.is_output_colorized then
        ['\x1b', '[', '1', ';', '3', '2', 'm'] ++ leftParenthesis cfg ++
          ['\x1b', '[', '0', 'm'] ++ render cfg e1 ++
          ['\x1b', '[', '1', ';', '3', '2', 'm', ')', '\x1b', '[', '0', 'm']
      else leftParenthesis cfg ++ render cfg e1 ++ [')']
    else render cfg e1) ++
    (if precedence e2 < precedence (.Concatenation e1 e2) ∧
        is_single_codepoint e2 = false then
      if cfg.is_output_colorized then
        ['\x1b', '[', '1', ';', '3', '2', 'm'] ++ leftParenthesis cfg ++
          ['\x1b', '[', '0', 'm'] ++ render cfg e2 ++
          ['\x1b', '[', '1', ';', '3', '2', 'm', ')', '\x1b', '[', '0', 'm']
      else leftParenthesis cfg ++ render cfg e2 ++ [')']
    else render cfg e2)
  | .Literal cluster => format_literal cfg cluster
  | .Repetition inner quantifier =>
    if precedence inner < precedence (.Repetition inner quantifier) ∧
        is_single_codepoint inner = false then
      if cfg.is_output_colorized then
        ['\x1b', '[', '1', ';', '3', '2', 'm'] ++ leftParenthesis cfg ++
          ['\x1b', '[', '0', 'm'] ++ render cfg inner ++
          ['\x1b', '[', '1', ';', '3', '2', 'm', ')', '\x1b', '[', '0',
            'm'] ++
          ['\x1b', '[', '1', ';', '3', '5', 'm'] ++ quantifier ++
          ['\x1b', '[', '0', 'm']
      else leftParenthesis cfg ++ render cfg inner ++ ')' :: quantifier
    else if cfg.is_output_colorized then
      render cfg inner ++ ['\x1b', '[', '1', ';', '3', '5', 'm'] ++
        quantifier ++ ['\x1b', '[', '0', 'm']
    else render cfg inner ++ quantifier
termination_by e => sizeOf e
decreasing_by
  all_goals simp_wf
  all_goals try (have h := List.sizeOf_lt_of_mem o.2; omega)
  all_goals omega

/-- **C5.** With colorization off, a child of an alternation, concatenation
or repetition node is wrapped in a group — `(` when capturing groups are
enabled, `(?:` otherwise, closed by `)` — exactly when its precedence is
strictly lower than its parent's and it is not a single codepoint; otherwise
its rendering is embedded unchanged. -/
theorem render_child_grouping (cfg : RegExpConfig)
    (hcol : cfg.is_output_colorized = false) :
    (∀ options : List Expression,
      render cfg (.Alternation options) =
        List.intercalate ['|'] (options.map (fun o =>
          if precedence o < precedence (.Alternation options) ∧
              is_single_codepoint o = false then
            leftParenthesis cfg ++ render cfg o ++ [')']
          else render cfg o))) ∧
    (∀ e1 e2 : Expression,
      render cfg (.Concatenation e1 e2) =
        (if precedence e1 < precedence (.Concatenation e1 e2) ∧
            is_single_codepoint e1 = false then
          leftParenthesis cfg ++ render cfg e1 ++ [')']
        else render cfg e1) ++
        (if precedence e2 < precedence (.Concatenation e1 e2) ∧
            is_single_codepoint e2 = false then
          leftParenthesis cfg ++ render cfg e2 ++ [')']
        else render cfg e2)) ∧
    (∀ (inner : Expression) (quantifier : List Char),
      render cfg (.Repetition inner quantifier) =
        if precedence inner < precedence (.Repetition inner quantifier) ∧
            is_single_codepoint inner = false then
          leftParenthesis cfg ++ render cfg inner ++ ')' :: quantifier
        else render cfg inner ++ quantifier) := by
  refine ⟨?_, ?_, ?_⟩
  · intro options
    rw [render]
    simp only [hcol, Bool.false_eq_true, if_false]
    congr 1
    simp
  · intro e1 e2
    rw [render]
    simp only [hcol, Bool.false_eq_true, if_false]
  · intro inner quantifier
    rw [render]
    simp only [hcol, Bool.false_eq_true, if_false]

/-- Witness for **C5**: a concatenation-in-alternation instance with
capturing groups off and colorization off. -/
theorem render_child_grouping_witness :
    render ⟨false, false, false, false⟩
        (.Alternation [.Concatenation (.CharacterClass ['a'])
          (.CharacterClass ['b'])]) =
      List.intercalate ['|']
        ([.Concatenation (.CharacterClass ['a']) (.CharacterClass ['b'])].map
          (fun o =>
            if precedence o < precedence (.Alternation
                [.Concatenation (.CharacterClass ['a'])
                  (.CharacterClass ['b'])]) ∧
                is_single_codepoint o = false then
              leftParenthesis ⟨false, false, false, false⟩ ++
                render ⟨false, false, false, false⟩ o ++ [')']
            else render ⟨false, false, false, false⟩ o)) :=
  (render_child_grouping ⟨false, false, false, false⟩ rfl).1 _

end Grex
